import Mathlib

/-!
Shallow embedding of `alpha_vantage/common/key_manager.py` (class `APIKeyManager`).

Python dictionaries `active_keys` / `expired_keys` are modelled as association
lists with insertion-order semantics: assignment `d[k] = v` updates in place
when the key is present and appends otherwise, `del d[k]` removes the entry.
Quota counters are Python ints, modelled as `Int` (so `current_count - 1` never
truncates).  The persisted JSON state file is modelled as the record of the two
key lists that `save_api_keys` writes; each state carries the current file
content in its `file` field.  The class attribute `API_LIMIT` (25 in the
source, overridable) is passed as an explicit parameter `L`.  The
non-deterministic `random.choice(max_keys)` of `set_key` is modelled by an
explicit tie-break function `choose : List String → String`, constrained in
theorems to return a member of its (non-empty) argument.
-/

namespace AlphaVantage

/-- A Python dict from API key to remaining-request count, in insertion order. -/
abbrev KeyDict := List (String × Int)

/-- Dictionary lookup `d[k]` (first matching entry). -/
def dlookup (d : KeyDict) (k : String) : Option Int :=
  match d with
  | [] => none
  | (k', v) :: rest => if k' = k then some v else dlookup rest k

/-- Dictionary assignment `d[k] = v`: update in place if present, else append. -/
def dinsert (d : KeyDict) (k : String) (v : Int) : KeyDict :=
  match d with
  | [] => [(k, v)]
  | (k', v') :: rest => if k' = k then (k', v) :: rest else (k', v') :: dinsert rest k v

/-- Dictionary deletion `del d[k]` (removes the first matching entry). -/
def derase (d : KeyDict) (k : String) : KeyDict :=
  match d with
  | [] => []
  | (k', v') :: rest => if k' = k then rest else (k', v') :: derase rest k

/-- The key list of a dict, in insertion order (`list(d.keys())`). -/
def dkeys (d : KeyDict) : List String := d.map Prod.fst

/-- The content of the persisted state file `api_keys.json`:
a record of two lists of key strings, active_keys and expired_keys. -/
structure SavedState where
  active_keys : List String
  expired_keys : List String
deriving DecidableEq, Repr

/-- The mutable state of the `APIKeyManager` singleton: the two key dicts, the
current key `self.api_key`, and the current content of the state file. -/
structure KMState where
  active : KeyDict
  expired : KeyDict
  api_key : String
  file : SavedState
deriving DecidableEq, Repr

/-- The default `API_LIMIT` class attribute. -/
def API_LIMIT : Int := 25

/-- The record written by `save_api_keys`: the two key lists (values dropped). -/
def saveRecord (s : KMState) : SavedState :=
  ⟨dkeys s.active, dkeys s.expired⟩

/-- `save_api_keys`: write the current membership record to the state file. -/
def save_api_keys (s : KMState) : KMState :=
  { s with file := saveRecord s }

/-- Dict-comprehension `{k: api_limit for k in l}`: fold of assignments. -/
def load_list (l : List String) (api_limit : Int) : KeyDict :=
  l.foldl (fun d k => dinsert d k api_limit) []

/-- `load_api_keys`: reconstruct the two dicts from the file record, every
listed key initialised to `api_limit`. -/
def load_api_keys (cfg : SavedState) (api_limit : Int) : KeyDict × KeyDict :=
  (load_list cfg.active_keys api_limit, load_list cfg.expired_keys api_limit)

/-- `ensure_active_keys`: if no active keys, swap the two dicts and save. -/
def ensure_active_keys (s : KMState) : KMState :=
  if s.active = [] then
    save_api_keys { s with active := s.expired, expired := s.active }
  else s

/-- `max(self.active_keys.values())` — Python `max` on a non-empty list. -/
def pyMax : List Int → Int
  | [] => 0
  | [x] => x
  | x :: y :: rest => max x (pyMax (y :: rest))

/-- `max_value = max(self.active_keys.values())`. -/
def max_value (d : KeyDict) : Int := pyMax (d.map Prod.snd)

/-- `max_keys = [key for key, value in d.items() if value == max_value]`. -/
def max_keys (d : KeyDict) : List String :=
  (d.filter (fun kv => kv.2 == max_value d)).map Prod.fst

/-- Errors raised by the manager (Python exceptions). -/
inductive KMError
  /-- `RuntimeError("No requests available for any API key")` /
  `RuntimeError("No API keys available")`. -/
  | noKeys
  /-- `RuntimeError("All API keys exhausted")`. -/
  | allExhausted
  /-- Python `KeyError` on a missing dict key. -/
  | keyError
  /-- `requests.HTTPError` re-raised by `make_request`. -/
  | transport
  /-- `RuntimeError("Invalid JSON response")`. -/
  | invalidJson
  /-- `VPNConnectionError` raised by `change_ip_address`. -/
  | vpnError
  /-- Modelling artifact: recursion fuel ran out (the source recursion on
  repeated soft blocks is unbounded). -/
  | outOfFuel
deriving DecidableEq, Repr

/-- `set_key`: ensure active keys, fail if none, else pick (via the tie-break
`choose`, modelling `random.choice`) a key of maximum remaining count. -/
def set_key (choose : List String → String) (s : KMState) : Except KMError KMState :=
  let s1 := ensure_active_keys s
  if s1.active = [] then .error .noKeys
  else .ok { s1 with api_key := choose (max_keys s1.active) }

/-- `remove_key`: move the current key to `expired_keys` with count `L`,
delete it from `active_keys`, and save. -/
def remove_key (L : Int) (s : KMState) : KMState :=
  save_api_keys
    { s with expired := dinsert s.expired s.api_key L,
             active := derase s.active s.api_key }

/-- `update_key_usage`: decrement the count of the current key; on reaching 0,
remove the key and either select a new one or raise
`RuntimeError("All API keys exhausted")`.  On error the state at the raise
point is returned alongside the error. -/
def update_key_usage (L : Int) (choose : List String → String) (s : KMState) :
    Except (KMError × KMState) KMState :=
  match dlookup s.active s.api_key with
  | none => .error (.keyError, s)
  | some current_count =>
    let new_count := current_count - 1
    if new_count = 0 then
      let s1 := remove_key L s
      if s1.active = [] then .error (.allExhausted, s1)
      else
        match set_key choose s1 with
        | .ok s2 => .ok s2
        | .error e => .error (e, s1)
    else
      .ok (save_api_keys { s with active := dinsert s.active s.api_key new_count })

/-- Outcome of one HTTP round trip `requests.get(url)`, as `make_request`
observes it: transport-level failure (`raise_for_status` / connection error),
body not parseable as JSON, or a parsed JSON body.  A parsed body is abstracted
to whether it contains the `Information` field (the soft-block marker —
membership only, the content is never inspected) and an opaque payload tag. -/
inductive HttpOutcome
  | transportError
  | badJson
  | ok (hasInformation : Bool) (payload : Nat)
deriving DecidableEq, Repr

/-- Instrumentation of one `make_request` call tree: HTTP attempts made,
`change_ip_address` invocations, and `time.sleep(8)` backoff waits. -/
structure DispatchLog where
  attempts : Nat
  rotations : Nat
  sleeps : Nat
deriving DecidableEq, Repr

/-- `make_request`, driven by a script of HTTP outcomes (one per attempt) and
a script of rotation outcomes (`true` = `change_ip_address` returns, `false` =
it raises `VPNConnectionError`).  `fuel` bounds the (unbounded in the source)
soft-block recursion; exhausting it yields the artificial `outOfFuel` error.
Returns the result, the state at return/raise, and the instrumentation log. -/
def make_request (L : Int) (choose : List String → String) :
    Nat → List HttpOutcome → List Bool → KMState → DispatchLog →
    Except KMError Nat × KMState × DispatchLog
  | 0, _, _, s, log => (.error .outOfFuel, s, log)
  | fuel + 1, responses, rotations, s, log =>
    let s1 := ensure_active_keys s
    if s1.active = [] then (.error .noKeys, s1, log)
    else
      let log1 : DispatchLog := { log with attempts := log.attempts + 1 }
      match responses.headD .transportError with
      | .transportError => (.error .transport, s1, log1)
      | .badJson => (.error .invalidJson, s1, log1)
      | .ok hasInfo payload =>
        if hasInfo then
          let s2 := remove_key L s1
          match set_key choose s2 with
          | .error e => (.error e, s2, log1)
          | .ok s3 =>
            let log2 : DispatchLog := { log1 with rotations := log1.rotations + 1 }
            if rotations.headD true then
              make_request L choose fuel responses.tail rotations.tail s3
                { log2 with sleeps := log2.sleeps + 1 }
            else
              (.error .vpnError, s3, log2)
        else
          match update_key_usage L choose s1 with
          | .ok s4 => (.ok payload, s4, log1)
          | .error (e, se) => (.error e, se, log1)

/-- Lexicographic strictly-less-than on character sequences (by code point). -/
def charListLt : List Char → List Char → Bool
  | [], [] => false
  | [], _ :: _ => true
  | _ :: _, [] => false
  | a :: as, b :: bs =>
    if a.val.toNat < b.val.toNat then true
    else if b.val.toNat < a.val.toNat then false
    else charListLt as bs

/-- The lexicographically smaller of two strings. -/
def strMin (a b : String) : String := if charListLt a.data b.data then a else b

/-- The lexicographically-first tie-break used by the deterministic scenarios
(one admissible outcome of `random.choice`). -/
def lexFirst : List String → String
  | [] => ""
  | x :: rest => rest.foldl strMin x

/-- Decidable equality for `Except` results, used to evaluate the embedding at
concrete inputs. -/
def exceptDecEq {ε α : Type} [DecidableEq ε] [DecidableEq α] :
    DecidableEq (Except ε α) := fun x y =>
  match x, y with
  | .ok a, .ok b =>
    if h : a = b then .isTrue (by rw [h]) else .isFalse (fun he => h (Except.ok.inj he))
  | .error a, .error b =>
    if h : a = b then .isTrue (by rw [h]) else .isFalse (fun he => h (Except.error.inj he))
  | .ok _, .error _ => .isFalse (fun he => Except.noConfusion he)
  | .error _, .ok _ => .isFalse (fun he => Except.noConfusion he)

instance {ε α : Type} [DecidableEq ε] [DecidableEq α] : DecidableEq (Except ε α) :=
  exceptDecEq

/-! ### Association-list lemmas -/

lemma mem_dkeys_dinsert {d : KeyDict} {k k' : String} {v : Int} :
    k' ∈ dkeys (dinsert d k v) ↔ k' = k ∨ k' ∈ dkeys d := by
  induction d with
  | nil => simp [dinsert, dkeys]
  | cons hd tl ih =>
    obtain ⟨k₀, v₀⟩ := hd
    by_cases h : k₀ = k
    · subst h
      simp [dinsert, dkeys]
    · simp [dinsert, h, dkeys] at ih ⊢
      tauto

lemma mem_dinsert {d : KeyDict} {kv : String × Int} {k : String} {v : Int}
    (h : kv ∈ dinsert d k v) : kv = (k, v) ∨ kv ∈ d := by
  induction d with
  | nil => simpa [dinsert] using h
  | cons hd tl ih =>
    obtain ⟨k₀, v₀⟩ := hd
    by_cases hk : k₀ = k
    · subst hk
      simp only [dinsert, if_true, List.mem_cons] at h
      rcases h with h | h
      · left; simp [h]
      · right; simp [h]
    · simp only [dinsert, if_neg hk, List.mem_cons] at h
      rcases h with h | h
      · right; simp [h]
      · rcases ih h with h' | h'
        · left; exact h'
        · right; simp [h']

lemma nodup_dkeys_dinsert {d : KeyDict} {k : String} {v : Int}
    (h : (dkeys d).Nodup) : (dkeys (dinsert d k v)).Nodup := by
  induction d with
  | nil => simp [dinsert, dkeys]
  | cons hd tl ih =>
    obtain ⟨k₀, v₀⟩ := hd
    simp only [dkeys, List.map_cons, List.nodup_cons] at h
    obtain ⟨h1, h2⟩ := h
    by_cases hk : k₀ = k
    · subst hk
      simp only [dinsert, if_true, dkeys, List.map_cons, List.nodup_cons]
      exact ⟨by simpa [dkeys] using h1, by simpa [dkeys] using h2⟩
    · simp only [dinsert, if_neg hk, dkeys, List.map_cons, List.nodup_cons]
      refine ⟨fun hmem => ?_, ih (by simpa [dkeys] using h2)⟩
      rcases mem_dkeys_dinsert.mp hmem with rfl | hmem'
      · exact hk rfl
      · exact h1 (by simpa [dkeys] using hmem')

lemma derase_sublist (d : KeyDict) (k : String) : List.Sublist (derase d k) d := by
  induction d with
  | nil => simp [derase]
  | cons hd tl ih =>
    obtain ⟨k₀, v₀⟩ := hd
    by_cases hk : k₀ = k
    · simp only [derase, if_pos hk]
      exact List.sublist_cons_self _ _
    · simp only [derase, if_neg hk]
      exact ih.cons₂ _

lemma mem_derase {d : KeyDict} {k : String} {kv : String × Int}
    (h : kv ∈ derase d k) : kv ∈ d :=
  (derase_sublist d k).subset h

lemma dkeys_derase_sublist (d : KeyDict) (k : String) :
    List.Sublist (dkeys (derase d k)) (dkeys d) :=
  (derase_sublist d k).map Prod.fst

lemma nodup_dkeys_derase {d : KeyDict} {k : String}
    (h : (dkeys d).Nodup) : (dkeys (derase d k)).Nodup :=
  h.sublist (dkeys_derase_sublist d k)

lemma not_mem_dkeys_derase {d : KeyDict} {k : String}
    (h : (dkeys d).Nodup) : k ∉ dkeys (derase d k) := by
  induction d with
  | nil => simp [derase, dkeys]
  | cons hd tl ih =>
    obtain ⟨k₀, v₀⟩ := hd
    simp only [dkeys, List.map_cons, List.nodup_cons] at h
    obtain ⟨h1, h2⟩ := h
    by_cases hk : k₀ = k
    · subst hk
      simpa [derase, dkeys] using h1
    · simp only [derase, if_neg hk, dkeys, List.map_cons, List.mem_cons]
      push_neg
      exact ⟨fun e => hk e.symm, by simpa [dkeys] using ih (by simpa [dkeys] using h2)⟩

lemma dlookup_mem {d : KeyDict} {k : String} {v : Int}
    (h : dlookup d k = some v) : (k, v) ∈ d := by
  induction d with
  | nil => simp [dlookup] at h
  | cons hd tl ih =>
    obtain ⟨k₀, v₀⟩ := hd
    by_cases hk : k₀ = k
    · subst hk
      simp only [dlookup, if_true, Option.some.injEq] at h
      simp [h]
    · simp only [dlookup, if_neg hk] at h
      simp [ih h]

lemma dlookup_eq_some_of_mem {d : KeyDict} {k : String} {v : Int}
    (hnd : (dkeys d).Nodup) (h : (k, v) ∈ d) : dlookup d k = some v := by
  induction d with
  | nil => simp at h
  | cons hd tl ih =>
    obtain ⟨k₀, v₀⟩ := hd
    simp only [dkeys, List.map_cons, List.nodup_cons] at hnd
    obtain ⟨h1, h2⟩ := hnd
    rcases List.mem_cons.mp h with heq | hm
    · injection heq with e1 e2
      subst e1
      subst e2
      simp [dlookup]
    · have hk : k₀ ≠ k := by
        rintro rfl
        exact h1 (by simpa [dkeys] using List.mem_map_of_mem Prod.fst hm)
      simp only [dlookup, if_neg hk]
      exact ih (by simpa [dkeys] using h2) hm

lemma exists_dlookup_of_mem_dkeys {d : KeyDict} {k : String}
    (h : k ∈ dkeys d) : ∃ v, dlookup d k = some v := by
  induction d with
  | nil => simp [dkeys] at h
  | cons hd tl ih =>
    obtain ⟨k₀, v₀⟩ := hd
    by_cases hk : k₀ = k
    · exact ⟨v₀, by simp [dlookup, hk]⟩
    · simp only [dkeys, List.map_cons, List.mem_cons] at h
      rcases h with rfl | hm
      · exact absurd rfl hk
      · simpa [dlookup, hk] using ih hm

lemma dinsert_ne_nil (d : KeyDict) (k : String) (v : Int) : dinsert d k v ≠ [] := by
  cases d with
  | nil => simp [dinsert]
  | cons hd tl =>
    obtain ⟨k₀, v₀⟩ := hd
    by_cases hk : k₀ = k <;> simp [dinsert, hk]

lemma dinsert_append_of_not_mem {d : KeyDict} {k : String} {v : Int}
    (h : k ∉ dkeys d) : dinsert d k v = d ++ [(k, v)] := by
  induction d with
  | nil => simp [dinsert]
  | cons hd tl ih =>
    obtain ⟨k₀, v₀⟩ := hd
    simp only [dkeys, List.map_cons, List.mem_cons] at h
    push_neg at h
    have hk : k₀ ≠ k := fun e => h.1 e.symm
    simp only [dinsert, if_neg hk, List.cons_append, List.cons.injEq, true_and]
    exact ih (by simpa [dkeys] using h.2)

/-! ### Maximum and selection lemmas -/

lemma pyMax_mem : ∀ {l : List Int}, l ≠ [] → pyMax l ∈ l := by
  intro l
  induction l with
  | nil => intro h; exact absurd rfl h
  | cons a as ih =>
    intro _
    cases as with
    | nil => simp [pyMax]
    | cons b bs =>
      rw [pyMax]
      rcases max_choice a (pyMax (b :: bs)) with h | h
      · rw [h]; exact List.mem_cons_self _ _
      · rw [h]; exact List.mem_cons_of_mem _ (ih (by simp))

lemma le_pyMax {l : List Int} {x : Int} (h : x ∈ l) : x ≤ pyMax l := by
  induction l with
  | nil => simp at h
  | cons a as ih =>
    cases as with
    | nil =>
      simp only [List.mem_singleton] at h
      simp [pyMax, h]
    | cons b bs =>
      rw [pyMax]
      rcases List.mem_cons.mp h with rfl | hm
      · exact le_max_left _ _
      · exact le_trans (ih hm) (le_max_right _ _)

lemma mem_max_keys {d : KeyDict} {k : String} (h : k ∈ max_keys d) :
    (k, max_value d) ∈ d := by
  simp only [max_keys, List.mem_map, List.mem_filter] at h
  obtain ⟨⟨k', v'⟩, ⟨hmem, hv⟩, hk⟩ := h
  have hv' : v' = max_value d := by simpa using hv
  subst hv'
  subst hk
  exact hmem

lemma max_keys_ne_nil {d : KeyDict} (h : d ≠ []) : max_keys d ≠ [] := by
  have hne : d.map Prod.snd ≠ [] := by simpa using h
  have hmem : max_value d ∈ d.map Prod.snd := pyMax_mem hne
  simp only [List.mem_map] at hmem
  obtain ⟨⟨k, v⟩, hm, hv⟩ := hmem
  have : k ∈ max_keys d := by
    simp only [max_keys, List.mem_map, List.mem_filter]
    exact ⟨(k, v), ⟨hm, by simpa using hv⟩, rfl⟩
  exact List.ne_nil_of_mem this

/-! ### Load lemmas (dict-comprehension folds) -/

lemma mem_foldl_dinsert {l : List String} {v : Int} {kv : String × Int} :
    ∀ {d0 : KeyDict}, kv ∈ l.foldl (fun d k => dinsert d k v) d0 →
      kv ∈ d0 ∨ (kv.1 ∈ l ∧ kv.2 = v) := by
  induction l with
  | nil =>
    intro d0 h
    exact Or.inl (by simpa using h)
  | cons x xs ih =>
    intro d0 h
    rw [List.foldl_cons] at h
    rcases ih h with h1 | h2
    · rcases mem_dinsert h1 with rfl | h3
      · right; simp
      · left; exact h3
    · right; exact ⟨List.mem_cons_of_mem _ h2.1, h2.2⟩

lemma mem_dkeys_foldl_dinsert {l : List String} {v : Int} :
    ∀ {d0 : KeyDict} {k : String},
      k ∈ dkeys (l.foldl (fun d k => dinsert d k v) d0) ↔ k ∈ dkeys d0 ∨ k ∈ l := by
  induction l with
  | nil => intro d0 k; simp
  | cons x xs ih =>
    intro d0 k
    rw [List.foldl_cons, ih, mem_dkeys_dinsert, List.mem_cons]
    tauto

lemma nodup_dkeys_foldl_dinsert {l : List String} {v : Int} :
    ∀ {d0 : KeyDict}, (dkeys d0).Nodup →
      (dkeys (l.foldl (fun d k => dinsert d k v) d0)).Nodup := by
  induction l with
  | nil => intro d0 h; simpa using h
  | cons x xs ih =>
    intro d0 h
    rw [List.foldl_cons]
    exact ih (nodup_dkeys_dinsert h)

lemma foldl_dinsert_eq_append {v : Int} : ∀ {l : List String} {d0 : KeyDict},
    l.Nodup → (∀ k ∈ l, k ∉ dkeys d0) →
      l.foldl (fun d k => dinsert d k v) d0 = d0 ++ l.map (fun k => (k, v)) := by
  intro l
  induction l with
  | nil => intro d0 _ _; simp
  | cons x xs ih =>
    intro d0 hnd hdisj
    rw [List.foldl_cons, dinsert_append_of_not_mem (hdisj x (List.mem_cons_self _ _))]
    rw [ih (List.Nodup.of_cons hnd)]
    · simp
    · intro k hk
      have hne : k ≠ x := by
        rintro rfl
        exact (List.nodup_cons.mp hnd).1 hk
      intro hmem
      simp only [dkeys, List.map_append, List.mem_append] at hmem
      rcases hmem with hmem | hmem
      · exact hdisj k (List.mem_cons_of_mem _ hk) (by simpa [dkeys] using hmem)
      · simp at hmem
        exact hne hmem

lemma load_list_eq_map {l : List String} {v : Int} (h : l.Nodup) :
    load_list l v = l.map (fun k => (k, v)) := by
  have := @foldl_dinsert_eq_append v l [] h (by simp [dkeys])
  simpa [load_list] using this

lemma mem_load_list {l : List String} {v : Int} {kv : String × Int}
    (h : kv ∈ load_list l v) : kv.1 ∈ l ∧ kv.2 = v := by
  rcases @mem_foldl_dinsert l v kv [] h with h1 | h2
  · simp at h1
  · exact h2

lemma mem_dkeys_load_list {l : List String} {v : Int} {k : String} :
    k ∈ dkeys (load_list l v) ↔ k ∈ l := by
  rw [load_list, mem_dkeys_foldl_dinsert]
  simp [dkeys]

lemma nodup_dkeys_load_list {l : List String} {v : Int} :
    (dkeys (load_list l v)).Nodup :=
  nodup_dkeys_foldl_dinsert (by simp [dkeys])

/-! ### Structure lemmas for the manager operations -/

@[simp] lemma save_api_keys_active (s : KMState) : (save_api_keys s).active = s.active := rfl

@[simp] lemma save_api_keys_expired (s : KMState) : (save_api_keys s).expired = s.expired := rfl

@[simp] lemma save_api_keys_key (s : KMState) : (save_api_keys s).api_key = s.api_key := rfl

@[simp] lemma save_api_keys_file (s : KMState) : (save_api_keys s).file = saveRecord s := rfl

@[simp] lemma remove_key_active (L : Int) (s : KMState) :
    (remove_key L s).active = derase s.active s.api_key := rfl

@[simp] lemma remove_key_expired (L : Int) (s : KMState) :
    (remove_key L s).expired = dinsert s.expired s.api_key L := rfl

@[simp] lemma remove_key_key (L : Int) (s : KMState) :
    (remove_key L s).api_key = s.api_key := rfl

lemma ensure_of_ne_nil {s : KMState} (h : s.active ≠ []) : ensure_active_keys s = s := by
  simp [ensure_active_keys, h]

lemma ensure_of_nil {s : KMState} (h : s.active = []) :
    ensure_active_keys s = save_api_keys { s with active := s.expired, expired := [] } := by
  simp [ensure_active_keys, h]

lemma set_key_eq_ok {choose : List String → String} {s s' : KMState}
    (h : set_key choose s = .ok s') :
    (ensure_active_keys s).active ≠ [] ∧
      s' = { ensure_active_keys s with
             api_key := choose (max_keys (ensure_active_keys s).active) } := by
  by_cases hc : (ensure_active_keys s).active = []
  · simp [set_key, hc] at h
  · simp only [set_key, if_neg hc, Except.ok.injEq] at h
    exact ⟨hc, h.symm⟩

lemma set_key_ok_of_ne_nil {choose : List String → String} {s : KMState}
    (h : (ensure_active_keys s).active ≠ []) :
    set_key choose s =
      .ok { ensure_active_keys s with
            api_key := choose (max_keys (ensure_active_keys s).active) } := by
  simp [set_key, h]

/-! ### The pool invariant -/

/-- The key-pool invariant: the key lists of both dicts are duplicate-free,
no key is in both dicts, every active count lies in `[1, L]` (the source never
leaves a 0 count in `active_keys`), and every expired count equals `L`. -/
def PoolInv (L : Int) (s : KMState) : Prop :=
  (dkeys s.active).Nodup ∧ (dkeys s.expired).Nodup ∧
  (∀ k ∈ dkeys s.active, k ∉ dkeys s.expired) ∧
  (∀ kv ∈ s.active, 1 ≤ kv.2 ∧ kv.2 ≤ L) ∧
  (∀ kv ∈ s.expired, kv.2 = L)

lemma poolInv_api_key {L : Int} {s : KMState} {k : String} :
    PoolInv L { s with api_key := k } ↔ PoolInv L s := Iff.rfl

lemma poolInv_save {L : Int} {s : KMState} :
    PoolInv L (save_api_keys s) ↔ PoolInv L s := Iff.rfl

lemma poolInv_ensure {L : Int} {s : KMState} (hL : 1 ≤ L) (h : PoolInv L s) :
    PoolInv L (ensure_active_keys s) := by
  by_cases hc : s.active = []
  · rw [ensure_of_nil hc]
    obtain ⟨h1, h2, h3, h4, h5⟩ := h
    refine ⟨h2, by simp [dkeys], by simp [dkeys], ?_, by simp⟩
    intro kv hkv
    exact ⟨(h5 kv hkv) ▸ hL, le_of_eq (h5 kv hkv)⟩
  · rwa [ensure_of_ne_nil hc]

lemma poolInv_remove {L : Int} {s : KMState} (h : PoolInv L s) :
    PoolInv L (remove_key L s) := by
  obtain ⟨h1, h2, h3, h4, h5⟩ := h
  refine ⟨nodup_dkeys_derase h1, nodup_dkeys_dinsert h2, ?_, ?_, ?_⟩
  · intro k hk
    simp only [remove_key_active] at hk
    have hk' : k ∈ dkeys s.active := (dkeys_derase_sublist _ _).subset hk
    have hne : k ≠ s.api_key := by
      rintro rfl
      exact not_mem_dkeys_derase h1 hk
    simp only [remove_key_expired]
    intro hmem
    rcases mem_dkeys_dinsert.mp hmem with he | he
    · exact hne he
    · exact h3 k hk' he
  · intro kv hkv
    exact h4 kv (mem_derase hkv)
  · intro kv hkv
    rcases mem_dinsert hkv with rfl | hm
    · rfl
    · exact h5 kv hm

lemma poolInv_set_key {L : Int} {choose : List String → String} {s s' : KMState}
    (hL : 1 ≤ L) (hinv : PoolInv L s) (h : set_key choose s = .ok s') : PoolInv L s' := by
  obtain ⟨hne, rfl⟩ := set_key_eq_ok h
  exact poolInv_api_key.mpr (poolInv_ensure hL hinv)

lemma poolInv_update_key_usage {L : Int} {choose : List String → String} {s : KMState}
    (hL : 1 ≤ L) (hinv : PoolInv L s) :
    (∀ {s' : KMState}, update_key_usage L choose s = .ok s' → PoolInv L s') ∧
    (∀ {e : KMError} {s' : KMState},
      update_key_usage L choose s = .error (e, s') → PoolInv L s') := by
  cases hlook : dlookup s.active s.api_key with
  | none =>
    constructor
    · intro s' h
      simp [update_key_usage, hlook] at h
    · intro e s' h
      simp only [update_key_usage, hlook, Except.error.injEq, Prod.mk.injEq] at h
      exact h.2 ▸ hinv
  | some c =>
    have hcm : (s.api_key, c) ∈ s.active := dlookup_mem hlook
    have hbounds := hinv.2.2.2.1 _ hcm
    by_cases hz : c - 1 = 0
    · have hinv1 : PoolInv L (remove_key L s) := poolInv_remove hinv
      by_cases hnil : derase s.active s.api_key = []
      · constructor
        · intro s' h
          simp [update_key_usage, hlook, hz, hnil] at h
        · intro e s' h
          simp [update_key_usage, hlook, hz, hnil] at h
          exact h.2 ▸ hinv1
      · cases hsk : set_key choose (remove_key L s) with
        | ok s2 =>
          have hinv2 : PoolInv L s2 := poolInv_set_key hL hinv1 hsk
          constructor
          · intro s' h
            simp [update_key_usage, hlook, hz, hnil, hsk] at h
            exact h ▸ hinv2
          · intro e s' h
            simp [update_key_usage, hlook, hz, hnil, hsk] at h
        | error e2 =>
          constructor
          · intro s' h
            simp [update_key_usage, hlook, hz, hnil, hsk] at h
          · intro e s' h
            simp [update_key_usage, hlook, hz, hnil, hsk] at h
            exact h.2 ▸ hinv1
    · constructor
      · intro s' h
        simp only [update_key_usage, hlook, hz, if_false, Except.ok.injEq] at h
        subst h
        obtain ⟨h1, h2, h3, h4, h5⟩ := hinv
        have hkmem : s.api_key ∈ dkeys s.active := by
          simpa [dkeys] using List.mem_map_of_mem Prod.fst hcm
        refine ⟨nodup_dkeys_dinsert h1, h2, ?_, ?_, h5⟩
        · intro k hk
          simp only [save_api_keys_active] at hk
          rcases mem_dkeys_dinsert.mp hk with rfl | hk'
          · exact h3 _ hkmem
          · exact h3 k hk'
        · intro kv hkv
          simp only [save_api_keys_active] at hkv
          rcases mem_dinsert hkv with rfl | hm
          · constructor <;> omega
          · exact h4 kv hm
      · intro e s' h
        simp [update_key_usage, hlook, hz] at h

/-! ### Reachable states -/

/-- One completed mutating operation of the manager, as the claim of the spec lists
them: the ensure-active swap, a selection (`set_key` with an admissible
tie-break), a quota commit (`update_key_usage`, successful or raising with the
state it leaves behind), and a forced expiry (`remove_key`, the soft-block
path).  The quota and expiry operations carry the guard under which the source
reaches them: the current key is an active key. -/
inductive Step (L : Int) : KMState → KMState → Prop
  | ensure (s : KMState) : Step L s (ensure_active_keys s)
  | select (s s' : KMState) (choose : List String → String)
      (hch : ∀ l, l ≠ [] → choose l ∈ l)
      (h : set_key choose s = .ok s') : Step L s s'
  | consume (s s' : KMState) (choose : List String → String)
      (hch : ∀ l, l ≠ [] → choose l ∈ l)
      (hk : s.api_key ∈ dkeys s.active)
      (h : update_key_usage L choose s = .ok s') : Step L s s'
  | consumeFail (s s' : KMState) (choose : List String → String) (e : KMError)
      (hch : ∀ l, l ≠ [] → choose l ∈ l)
      (hk : s.api_key ∈ dkeys s.active)
      (h : update_key_usage L choose s = .error (e, s')) : Step L s s'
  | expire (s : KMState) (hk : s.api_key ∈ dkeys s.active) :
      Step L s (remove_key L s)

/-- States reachable from a load of a persisted record whose two key lists are
disjoint, closed under the operations of the manager. -/
inductive Reachable (L : Int) : KMState → Prop
  | load (cfg : SavedState) (k : String)
      (hdisj : ∀ x ∈ cfg.active_keys, x ∉ cfg.expired_keys) :
      Reachable L ⟨(load_api_keys cfg L).1, (load_api_keys cfg L).2, k, cfg⟩
  | step (s s' : KMState) (h : Reachable L s) (hs : Step L s s') : Reachable L s'

lemma poolInv_step {L : Int} {s s' : KMState} (hL : 1 ≤ L)
    (hinv : PoolInv L s) (h : Step L s s') : PoolInv L s' := by
  cases h with
  | ensure => exact poolInv_ensure hL hinv
  | select =>
    rename_i hsk
    exact poolInv_set_key hL hinv hsk
  | consume =>
    rename_i hu
    exact (poolInv_update_key_usage hL hinv).1 hu
  | consumeFail =>
    rename_i hu
    exact (poolInv_update_key_usage hL hinv).2 hu
  | expire => exact poolInv_remove hinv

lemma poolInv_reachable {L : Int} {s : KMState} (hL : 1 ≤ L)
    (h : Reachable L s) : PoolInv L s := by
  induction h with
  | load cfg k hdisj =>
    refine ⟨nodup_dkeys_load_list, nodup_dkeys_load_list, ?_, ?_, ?_⟩
    · intro k' hk'
      simp only [load_api_keys, mem_dkeys_load_list] at hk' ⊢
      exact hdisj k' hk'
    · intro kv hkv
      obtain ⟨_, hv⟩ := mem_load_list hkv
      exact ⟨hv ▸ hL, le_of_eq hv⟩
    · intro kv hkv
      exact (mem_load_list hkv).2
  | step s s' hr hs ih => exact poolInv_step hL ih hs

lemma dlookup_dinsert_self (d : KeyDict) (k : String) (v : Int) :
    dlookup (dinsert d k v) k = some v := by
  induction d with
  | nil => simp [dinsert, dlookup]
  | cons hd tl ih =>
    obtain ⟨k₀, v₀⟩ := hd
    by_cases hk : k₀ = k
    · subst hk
      simp [dinsert, dlookup]
    · simp [dinsert, dlookup, hk, ih]

lemma strMin_choice (a b : String) : strMin a b = a ∨ strMin a b = b := by
  by_cases h : charListLt a.data b.data <;> simp [strMin, h]

lemma foldl_strMin_mem :
    ∀ (rest : List String) (a : String), rest.foldl strMin a ∈ a :: rest := by
  intro rest
  induction rest with
  | nil => intro a; simp
  | cons b bs ih =>
    intro a
    rw [List.foldl_cons]
    rcases List.mem_cons.mp (ih (strMin a b)) with he | hm
    · rcases strMin_choice a b with h | h
      · rw [he, h]; exact List.mem_cons_self _ _
      · rw [he, h]; exact List.mem_cons_of_mem _ (List.mem_cons_self _ _)
    · exact List.mem_cons_of_mem _ (List.mem_cons_of_mem _ hm)

lemma lexFirst_mem : ∀ l : List String, l ≠ [] → lexFirst l ∈ l := by
  intro l h
  cases l with
  | nil => exact absurd rfl h
  | cons x rest => exact foldl_strMin_mem rest x

/-! ### Claim theorems -/

/-- C1: Pool invariant — in every state reachable by the operations of the manager
(load of a disjoint record, ensure-active swap, selection, consume, forced
expiry), every key belongs to at most/exactly one of `active`/`expired`, the
remaining count of every active key lies in `[0, L]`, and the remaining count
of every expired key equals `L` (for any positive limit `L`, 25 in the
source). -/
theorem c1_pool_invariant (L : Int) (hL : 1 ≤ L) (s : KMState) (h : Reachable L s) :
    (∀ k, ¬(k ∈ dkeys s.active ∧ k ∈ dkeys s.expired)) ∧
    (∀ kv ∈ s.active, 0 ≤ kv.2 ∧ kv.2 ≤ L) ∧
    (∀ kv ∈ s.expired, kv.2 = L) := by
  obtain ⟨h1, h2, h3, h4, h5⟩ := poolInv_reachable hL h
  refine ⟨fun k hk => h3 k hk.1 hk.2, fun kv hkv => ?_, h5⟩
  obtain ⟨hlo, hhi⟩ := h4 kv hkv
  exact ⟨le_trans zero_le_one hlo, hhi⟩

/-- State loaded from the record with active list KEY1 and expired list KEY2. -/
def c1State : KMState :=
  ⟨(load_api_keys ⟨["KEY1"], ["KEY2"]⟩ 25).1,
   (load_api_keys ⟨["KEY1"], ["KEY2"]⟩ 25).2, "KEY1", ⟨["KEY1"], ["KEY2"]⟩⟩

/-- Witness for C1 at a concrete loaded state with `L = 25`. -/
theorem c1_pool_invariant_witness :
    (∀ k, ¬(k ∈ dkeys c1State.active ∧ k ∈ dkeys c1State.expired)) ∧
    (∀ kv ∈ c1State.active, 0 ≤ kv.2 ∧ kv.2 ≤ 25) ∧
    (∀ kv ∈ c1State.expired, kv.2 = 25) :=
  c1_pool_invariant 25 (by norm_num) c1State
    (Reachable.load ⟨["KEY1"], ["KEY2"]⟩ "KEY1" (by decide))

/-- C5: Swap property — `ensure_active_keys` on a state with empty
`active_keys` and non-empty `expired_keys` makes `active_keys` equal to the
prior `expired_keys` (all entries at full quota `L`, given the invariant on
expired entries) and empties `expired_keys`. -/
theorem c5_swap_property (L : Int) (s : KMState)
    (hempty : s.active = []) (hne : s.expired ≠ [])
    (hexp : ∀ kv ∈ s.expired, kv.2 = L) :
    (ensure_active_keys s).active = s.expired ∧
    (ensure_active_keys s).expired = [] ∧
    (∀ kv ∈ (ensure_active_keys s).active, kv.2 = L) := by
  rw [ensure_of_nil hempty]
  exact ⟨rfl, rfl, hexp⟩

/-- Witness for C5: swapping `active={}`, `expired={A:25, B:25}`. -/
theorem c5_swap_property_witness :
    (ensure_active_keys ⟨[], [("A", 25), ("B", 25)], "A", ⟨[], ["A", "B"]⟩⟩).active =
        [("A", 25), ("B", 25)] ∧
    (ensure_active_keys ⟨[], [("A", 25), ("B", 25)], "A", ⟨[], ["A", "B"]⟩⟩).expired = [] ∧
    (∀ kv ∈ (ensure_active_keys
        ⟨[], [("A", 25), ("B", 25)], "A", ⟨[], ["A", "B"]⟩⟩).active, kv.2 = 25) :=
  c5_swap_property 25 ⟨[], [("A", 25), ("B", 25)], "A", ⟨[], ["A", "B"]⟩⟩
    rfl (by decide) (by decide)

/-- C6: Persistence round-trip — loading the record saved from a pool yields a
pool with identical active/expired key membership (in order), every entry at
quota `L`. -/
theorem c6_persistence_roundtrip (L : Int) (s : KMState)
    (hna : (dkeys s.active).Nodup) (hnx : (dkeys s.expired).Nodup) :
    dkeys (load_api_keys (saveRecord s) L).1 = dkeys s.active ∧
    dkeys (load_api_keys (saveRecord s) L).2 = dkeys s.expired ∧
    (∀ kv ∈ (load_api_keys (saveRecord s) L).1, kv.2 = L) ∧
    (∀ kv ∈ (load_api_keys (saveRecord s) L).2, kv.2 = L) := by
  refine ⟨?_, ?_, fun kv hkv => (mem_load_list hkv).2, fun kv hkv => (mem_load_list hkv).2⟩
  · show dkeys (load_list (dkeys s.active) L) = dkeys s.active
    rw [load_list_eq_map hna]
    simp [dkeys, List.map_map, Function.comp_def]
  · show dkeys (load_list (dkeys s.expired) L) = dkeys s.expired
    rw [load_list_eq_map hnx]
    simp [dkeys, List.map_map, Function.comp_def]

/-- Witness for C6 on a pool with partially used quotas. -/
theorem c6_persistence_roundtrip_witness :
    dkeys (load_api_keys (saveRecord ⟨[("A", 3), ("B", 25)], [("C", 25)], "A",
        ⟨["A", "B"], ["C"]⟩⟩) 25).1 =
      dkeys (⟨[("A", 3), ("B", 25)], [("C", 25)], "A",
        ⟨["A", "B"], ["C"]⟩⟩ : KMState).active ∧
    dkeys (load_api_keys (saveRecord ⟨[("A", 3), ("B", 25)], [("C", 25)], "A",
        ⟨["A", "B"], ["C"]⟩⟩) 25).2 =
      dkeys (⟨[("A", 3), ("B", 25)], [("C", 25)], "A",
        ⟨["A", "B"], ["C"]⟩⟩ : KMState).expired ∧
    (∀ kv ∈ (load_api_keys (saveRecord ⟨[("A", 3), ("B", 25)], [("C", 25)], "A",
        ⟨["A", "B"], ["C"]⟩⟩) 25).1, kv.2 = 25) ∧
    (∀ kv ∈ (load_api_keys (saveRecord ⟨[("A", 3), ("B", 25)], [("C", 25)], "A",
        ⟨["A", "B"], ["C"]⟩⟩) 25).2, kv.2 = 25) :=
  c6_persistence_roundtrip 25 ⟨[("A", 3), ("B", 25)], [("C", 25)], "A",
    ⟨["A", "B"], ["C"]⟩⟩ (by decide) (by decide)

/-- C7: Selection correctness — on a state with non-empty `active_keys`,
`set_key` succeeds for every admissible outcome of the random tie-break, and
the remaining count of the selected key equals the maximum remaining count among
all active keys. -/
theorem c7_selection_max (choose : List String → String)
    (hch : ∀ l, l ≠ [] → choose l ∈ l) (s : KMState)
    (hne : s.active ≠ []) (hnd : (dkeys s.active).Nodup) :
    ∃ s', set_key choose s = .ok s' ∧
      dlookup s.active s'.api_key = some (max_value s.active) ∧
      (∀ kv ∈ s.active, kv.2 ≤ max_value s.active) := by
  have hens : ensure_active_keys s = s := ensure_of_ne_nil hne
  have hok := @set_key_ok_of_ne_nil choose s (by rwa [hens])
  rw [hens] at hok
  refine ⟨_, hok, ?_, fun kv hkv => le_pyMax (List.mem_map_of_mem Prod.snd hkv)⟩
  have hc : choose (max_keys s.active) ∈ max_keys s.active :=
    hch _ (max_keys_ne_nil hne)
  exact dlookup_eq_some_of_mem hnd (mem_max_keys hc)

/-- Witness for C7 with the lexicographic tie-break on `{A:2, B:7, C:7}`. -/
theorem c7_selection_max_witness :
    ∃ s', set_key lexFirst ⟨[("A", 2), ("B", 7), ("C", 7)], [], "A",
        ⟨["A", "B", "C"], []⟩⟩ = .ok s' ∧
      dlookup [("A", 2), ("B", 7), ("C", 7)] s'.api_key =
        some (max_value [("A", 2), ("B", 7), ("C", 7)]) ∧
      (∀ kv ∈ [(("A" : String), (2 : Int)), ("B", 7), ("C", 7)],
        kv.2 ≤ max_value [("A", 2), ("B", 7), ("C", 7)]) :=
  c7_selection_max lexFirst lexFirst_mem
    ⟨[("A", 2), ("B", 7), ("C", 7)], [], "A", ⟨["A", "B", "C"], []⟩⟩
    (by decide) (by decide)

/-- C10: Load disjointness precondition — `load_api_keys` performs no
deduplication across the two persisted lists: a key listed in both
`active_keys` and `expired_keys` is reconstructed into both dicts. -/
theorem c10_load_no_dedup (L : Int) (cfg : SavedState) (k : String)
    (ha : k ∈ cfg.active_keys) (he : k ∈ cfg.expired_keys) :
    k ∈ dkeys (load_api_keys cfg L).1 ∧ k ∈ dkeys (load_api_keys cfg L).2 :=
  ⟨mem_dkeys_load_list.mpr ha, mem_dkeys_load_list.mpr he⟩

/-- Witness for C10: the key `DUP` listed in both persisted lists lands in
both reconstructed dicts. -/
theorem c10_load_no_dedup_witness :
    "DUP" ∈ dkeys (load_api_keys ⟨["DUP"], ["DUP", "E"]⟩ 25).1 ∧
    "DUP" ∈ dkeys (load_api_keys ⟨["DUP"], ["DUP", "E"]⟩ 25).2 :=
  c10_load_no_dedup 25 ⟨["DUP"], ["DUP", "E"]⟩ "DUP" (by decide) (by decide)

/-- C4: Consume semantics — with the current key active at remaining `r`,
`update_key_usage` decrements the count by exactly 1; when the result reaches
0 the key is moved to `expired_keys` at full quota `L` and removed from
`active_keys`, after which a new selection is chosen immediately if
`active_keys` is non-empty, and the call raises `All API keys exhausted` if it
is empty — leaving the post-removal state, with no mid-call pool swap. -/
theorem c4_consume_semantics (L : Int) (choose : List String → String)
    (hch : ∀ l, l ≠ [] → choose l ∈ l) (s : KMState) (r : Int)
    (hnd : (dkeys s.active).Nodup)
    (hkey : dlookup s.active s.api_key = some r) :
    (r - 1 ≠ 0 → update_key_usage L choose s =
      .ok (save_api_keys { s with active := dinsert s.active s.api_key (r - 1) })) ∧
    (r - 1 = 0 →
      (dlookup (remove_key L s).expired s.api_key = some L ∧
        s.api_key ∉ dkeys (remove_key L s).active) ∧
      ((remove_key L s).active ≠ [] →
        ∃ s', update_key_usage L choose s = .ok s' ∧
          s'.api_key ∈ dkeys s'.active ∧
          s'.active = (remove_key L s).active ∧
          s'.expired = (remove_key L s).expired) ∧
      ((remove_key L s).active = [] →
        update_key_usage L choose s = .error (.allExhausted, remove_key L s))) := by
  constructor
  · intro hz
    simp [update_key_usage, hkey, hz]
  · intro hz
    refine ⟨⟨dlookup_dinsert_self _ _ _, not_mem_dkeys_derase hnd⟩, ?_, ?_⟩
    · intro hne
      have hne' : derase s.active s.api_key ≠ [] := by simpa using hne
      have hens : ensure_active_keys (remove_key L s) = remove_key L s :=
        ensure_of_ne_nil hne
      have hok := @set_key_ok_of_ne_nil choose (remove_key L s) (by rwa [hens])
      rw [hens] at hok
      refine ⟨{ remove_key L s with
                api_key := choose (max_keys (remove_key L s).active) }, ?_, ?_, rfl, rfl⟩
      · simp [update_key_usage, hkey, hz, hne', hok]
      · have hc : choose (max_keys (remove_key L s).active) ∈
            max_keys (remove_key L s).active := hch _ (max_keys_ne_nil hne)
        exact List.mem_map_of_mem Prod.fst (mem_max_keys hc)
    · intro hnil
      have hnil' : derase s.active s.api_key = [] := by simpa using hnil
      simp [update_key_usage, hkey, hz, hnil']

/-- Witness for C4 at `active={A:2, B:3}`, current key `A`, `r = 2`, `L = 25`. -/
theorem c4_consume_semantics_witness :
    ((2 : Int) - 1 ≠ 0 → update_key_usage 25 lexFirst
        ⟨[("A", 2), ("B", 3)], [], "A", ⟨["A", "B"], []⟩⟩ =
      .ok (save_api_keys { (⟨[("A", 2), ("B", 3)], [], "A",
        ⟨["A", "B"], []⟩⟩ : KMState) with
          active := dinsert [("A", 2), ("B", 3)] "A" (2 - 1) })) ∧
    ((2 : Int) - 1 = 0 →
      (dlookup (remove_key 25 ⟨[("A", 2), ("B", 3)], [], "A",
          ⟨["A", "B"], []⟩⟩).expired "A" = some 25 ∧
        "A" ∉ dkeys (remove_key 25 ⟨[("A", 2), ("B", 3)], [], "A",
          ⟨["A", "B"], []⟩⟩).active) ∧
      ((remove_key 25 ⟨[("A", 2), ("B", 3)], [], "A",
          ⟨["A", "B"], []⟩⟩).active ≠ [] →
        ∃ s', update_key_usage 25 lexFirst ⟨[("A", 2), ("B", 3)], [], "A",
            ⟨["A", "B"], []⟩⟩ = .ok s' ∧
          s'.api_key ∈ dkeys s'.active ∧
          s'.active = (remove_key 25 ⟨[("A", 2), ("B", 3)], [], "A",
            ⟨["A", "B"], []⟩⟩).active ∧
          s'.expired = (remove_key 25 ⟨[("A", 2), ("B", 3)], [], "A",
            ⟨["A", "B"], []⟩⟩).expired) ∧
      ((remove_key 25 ⟨[("A", 2), ("B", 3)], [], "A",
          ⟨["A", "B"], []⟩⟩).active = [] →
        update_key_usage 25 lexFirst ⟨[("A", 2), ("B", 3)], [], "A",
            ⟨["A", "B"], []⟩⟩ =
          .error (.allExhausted, remove_key 25 ⟨[("A", 2), ("B", 3)], [], "A",
            ⟨["A", "B"], []⟩⟩))) :=
  c4_consume_semantics 25 lexFirst lexFirst_mem
    ⟨[("A", 2), ("B", 3)], [], "A", ⟨["A", "B"], []⟩⟩ 2 (by decide) (by decide)

/-- C8: Transport-error atomicity — when the HTTP round trip fails at the
transport level, `make_request` raises the transport error with the pool
exactly as it stood just before the network call (the state produced by the
initial `ensure_active_keys`): no quota change, no key movement, and no retry
(one attempt, no rotation, no backoff). -/
theorem c8_transport_atomic (L : Int) (choose : List String → String) (fuel : Nat)
    (rest : List HttpOutcome) (rots : List Bool) (s : KMState) (log : DispatchLog)
    (hne : (ensure_active_keys s).active ≠ []) :
    make_request L choose (fuel + 1) (HttpOutcome.transportError :: rest) rots s log =
      (.error .transport, ensure_active_keys s,
        { log with attempts := log.attempts + 1 }) := by
  simp [make_request, hne]

/-- Witness for C8 on `active={A:5}`. -/
theorem c8_transport_atomic_witness :
    make_request 25 lexFirst 4 [HttpOutcome.transportError] []
        ⟨[("A", 5)], [], "A", ⟨["A"], []⟩⟩ ⟨0, 0, 0⟩ =
      (.error .transport, ensure_active_keys ⟨[("A", 5)], [], "A", ⟨["A"], []⟩⟩,
        ⟨1, 0, 0⟩) :=
  c8_transport_atomic 25 lexFirst 3 [] [] ⟨[("A", 5)], [], "A", ⟨["A"], []⟩⟩
    ⟨0, 0, 0⟩ (by decide)

/-! ### Scenario A (claim C2) -/

/-- Scenario A initial state: `LIMIT=2`, `active={A:2, B:2}`, `expired={}`,
current key `A` (the lexicographically-first of the tied maximum keys). -/
def scenarioInit : KMState := ⟨[("A", 2), ("B", 2)], [], "A", ⟨["A", "B"], []⟩⟩

/-- One successful dispatch of Scenario A: `LIMIT=2`, lexicographic tie-break,
HTTP succeeds with a body free of the soft-block marker. -/
def scenarioDispatch (s : KMState) : Except KMError Nat × KMState × DispatchLog :=
  make_request 2 lexFirst 5 [HttpOutcome.ok false 0] [] s ⟨0, 0, 0⟩

/-- The pool state after `n` Scenario A dispatches. -/
def scenarioState : Nat → KMState
  | 0 => scenarioInit
  | n + 1 => (scenarioDispatch (scenarioState n)).2.1

/-- C2 counterexample: the claim asserts that call 2 selects `B` (because its
remaining 2 exceeds the remaining 1 of `A`) and consumes it to 1, i.e. that after two
dispatches `active = {A:1, B:1}`.  In the code no selection happens on
dispatch: `make_request` keeps using `self.api_key`, so call 2 consumes `A`
again; after two dispatches `A` is expired and `B` still holds remaining 2. -/
theorem c2_scenario_counterexample :
    ¬(dlookup (scenarioState 2).active "B" = some 1 ∧
      dlookup (scenarioState 2).active "A" = some 1) ∧
    dlookup (scenarioState 2).active "B" = some 2 ∧
    dlookup (scenarioState 2).active "A" = none := by
  refine ⟨?_, rfl, rfl⟩
  intro h
  exact absurd (rfl.trans h.1) (by decide)

/-- C2 amended: with `LIMIT=2`, initial `active={A:2, B:2}`, `expired={}` and
the lexicographic tie-break, the initial selection picks `A`, and four
successive dispatches produce: call 1 consumes `A` to 1 (the current key is
kept, no per-call selection); call 2 consumes `A` to 0, expires it (reset to
2) and selects `B`; call 3 consumes `B` to 1; call 4 consumes `B` to 0,
expires it, and its commit step fails with the all-keys-exhausted error. -/
theorem c2_scenario_trace :
    set_key lexFirst ⟨[("A", 2), ("B", 2)], [], "", ⟨["A", "B"], []⟩⟩ =
      .ok scenarioInit ∧
    scenarioDispatch (scenarioState 0) =
      (.ok 0, ⟨[("A", 1), ("B", 2)], [], "A", ⟨["A", "B"], []⟩⟩, ⟨1, 0, 0⟩) ∧
    scenarioDispatch (scenarioState 1) =
      (.ok 0, ⟨[("B", 2)], [("A", 2)], "B", ⟨["B"], ["A"]⟩⟩, ⟨1, 0, 0⟩) ∧
    scenarioDispatch (scenarioState 2) =
      (.ok 0, ⟨[("B", 1)], [("A", 2)], "B", ⟨["B"], ["A"]⟩⟩, ⟨1, 0, 0⟩) ∧
    scenarioDispatch (scenarioState 3) =
      (.error .allExhausted, ⟨[], [("A", 2), ("B", 2)], "B", ⟨[], ["A", "B"]⟩⟩,
        ⟨1, 0, 0⟩) :=
  ⟨by decide, rfl, rfl, rfl, rfl⟩

/-! ### Soft-block handling (claims C3 and C9) -/

/-- A two-key pool used as the concrete soft-block dispatch input. -/
def softBlockInit : KMState := ⟨[("A", 25), ("B", 25)], [], "A", ⟨["A", "B"], []⟩⟩

/-- C3 counterexample: the claim asserts every soft-blocked dispatch waits a
backoff and performs exactly one retry.  When `change_ip_address` raises, the
code propagates the error before the `time.sleep(8)` and the recursive call:
this dispatch makes 1 HTTP attempt, 1 rotation attempt, 0 sleeps and 0
retries. -/
theorem c3_softblock_counterexample :
    make_request 25 lexFirst 5 [HttpOutcome.ok true 0] [false] softBlockInit ⟨0, 0, 0⟩ =
      (.error .vpnError, ⟨[("B", 25)], [("A", 25)], "B", ⟨["B"], ["A"]⟩⟩,
        ⟨1, 1, 0⟩) := rfl

/-- C3 amended: a dispatch whose response carries the soft-block marker
(membership of the field, content irrelevant) moves the current key to
`expired_keys` at full quota `L`, selects a replacement, and invokes the
rotation action exactly once; if the rotation succeeds it performs exactly one
backoff wait and exactly one retry, and if the rotation fails it raises with
no wait and no retry.  No quota is consumed for the blocked attempt: every
entry active afterwards either predates the dispatch or is at full quota. -/
theorem c3_softblock_amended (L : Int) (choose : List String → String)
    (fuel : Nat) (rest : List HttpOutcome) (rots : List Bool) (p : Nat)
    (s : KMState) (log : DispatchLog)
    (hne : (ensure_active_keys s).active ≠ []) :
    ∃ s3, set_key choose (remove_key L (ensure_active_keys s)) = .ok s3 ∧
      dlookup (remove_key L (ensure_active_keys s)).expired
        (ensure_active_keys s).api_key = some L ∧
      (∀ kv ∈ s3.active, kv ∈ (ensure_active_keys s).active ∨
        kv ∈ (ensure_active_keys s).expired ∨ kv.2 = L) ∧
      (rots.headD true = true →
        make_request L choose (fuel + 1) (HttpOutcome.ok true p :: rest) rots s log =
          make_request L choose fuel rest rots.tail s3
            ⟨log.attempts + 1, log.rotations + 1, log.sleeps + 1⟩) ∧
      (rots.headD true = false →
        make_request L choose (fuel + 1) (HttpOutcome.ok true p :: rest) rots s log =
          (.error .vpnError, s3, ⟨log.attempts + 1, log.rotations + 1, log.sleeps⟩)) := by
  have hexp2 : (remove_key L (ensure_active_keys s)).expired ≠ [] := dinsert_ne_nil _ _ _
  have hens2 : (ensure_active_keys (remove_key L (ensure_active_keys s))).active ≠ [] := by
    by_cases hc : (remove_key L (ensure_active_keys s)).active = []
    · rw [ensure_of_nil hc]
      simpa using hexp2
    · rwa [ensure_of_ne_nil hc]
  have hok := @set_key_ok_of_ne_nil choose (remove_key L (ensure_active_keys s)) hens2
  refine ⟨_, hok, dlookup_dinsert_self _ _ _, ?_, ?_, ?_⟩
  · intro kv hkv
    by_cases hc : (remove_key L (ensure_active_keys s)).active = []
    · rw [ensure_of_nil hc] at hkv
      simp only [save_api_keys_active] at hkv
      rcases mem_dinsert (d := (ensure_active_keys s).expired) hkv with rfl | hm
      · right; right; rfl
      · right; left; exact hm
    · rw [ensure_of_ne_nil hc] at hkv
      simp only [remove_key_active] at hkv
      left
      exact mem_derase hkv
  · intro hrot
    cases rots with
    | nil => simp [make_request, hne, hok]
    | cons b bs =>
      have hb : b = true := by simpa using hrot
      subst hb
      simp [make_request, hne, hok]
  · intro hrot
    cases rots with
    | nil => simp at hrot
    | cons b bs =>
      have hb : b = false := by simpa using hrot
      subst hb
      simp [make_request, hne, hok]

/-- Witness for C3 amended: a soft-blocked dispatch on `{A:25, B:25}` with a
succeeding rotation. -/
theorem c3_softblock_amended_witness :
    ∃ s3, set_key lexFirst (remove_key 25 (ensure_active_keys softBlockInit)) =
        .ok s3 ∧
      dlookup (remove_key 25 (ensure_active_keys softBlockInit)).expired
        (ensure_active_keys softBlockInit).api_key = some 25 ∧
      (∀ kv ∈ s3.active, kv ∈ (ensure_active_keys softBlockInit).active ∨
        kv ∈ (ensure_active_keys softBlockInit).expired ∨ kv.2 = 25) ∧
      ([true].headD true = true →
        make_request 25 lexFirst (3 + 1) (HttpOutcome.ok true 7 :: [HttpOutcome.ok false 9])
            [true] softBlockInit ⟨0, 0, 0⟩ =
          make_request 25 lexFirst 3 [HttpOutcome.ok false 9] [true].tail s3 ⟨1, 1, 1⟩) ∧
      ([true].headD true = false →
        make_request 25 lexFirst (3 + 1) (HttpOutcome.ok true 7 :: [HttpOutcome.ok false 9])
            [true] softBlockInit ⟨0, 0, 0⟩ =
          (.error .vpnError, s3, ⟨1, 1, 0⟩)) :=
  c3_softblock_amended 25 lexFirst 3 [HttpOutcome.ok false 9] [true] 7
    softBlockInit ⟨0, 0, 0⟩ (by decide)

/-- A single-key pool at full quota: the C9 counterexample input. -/
def soloInit : KMState := ⟨[("A", 25)], [], "A", ⟨["A"], []⟩⟩

/-- C9 counterexample: the claim asserts that a dispatch failing with the
identity-rotation error never leaves the pool state unchanged, with the
blocked key in `expired`.  With a single active key at full quota, the key is
moved to `expired` and immediately swapped back by the `ensure_active_keys`
inside `set_key`, so the dispatch raises the rotation error with the pool
exactly as it started. -/
theorem c9_rotation_failure_counterexample :
    make_request 25 lexFirst 5 [HttpOutcome.ok true 0] [false] soloInit ⟨0, 0, 0⟩ =
      (.error .vpnError, soloInit, ⟨1, 1, 0⟩) := rfl

/-- C9 amended: when the rotation step of a soft-blocked dispatch fails and at
least one other key stays active after the removal, the rotation error
propagates only after the pool has been mutated and persisted: the blocked
key sits in `expired_keys` at full quota `L` and is gone from `active_keys`,
a new current selection from `active_keys` has been made, and the state file
holds the post-removal record. -/
theorem c9_rotation_failure_amended (L : Int) (choose : List String → String)
    (hch : ∀ l, l ≠ [] → choose l ∈ l)
    (fuel : Nat) (rest : List HttpOutcome) (rots : List Bool) (p : Nat)
    (s : KMState) (log : DispatchLog)
    (hrot : rots.headD true = false)
    (hnd : (dkeys (ensure_active_keys s).active).Nodup)
    (hrem : derase (ensure_active_keys s).active (ensure_active_keys s).api_key ≠ []) :
    ∃ s3, make_request L choose (fuel + 1) (HttpOutcome.ok true p :: rest) rots s log =
        (.error .vpnError, s3, ⟨log.attempts + 1, log.rotations + 1, log.sleeps⟩) ∧
      dlookup s3.expired (ensure_active_keys s).api_key = some L ∧
      (ensure_active_keys s).api_key ∉ dkeys s3.active ∧
      s3.api_key ∈ dkeys s3.active ∧
      s3.file = saveRecord (remove_key L (ensure_active_keys s)) := by
  have hne : (ensure_active_keys s).active ≠ [] := by
    intro hnil
    exact hrem (by rw [hnil]; rfl)
  have hens2 : ensure_active_keys (remove_key L (ensure_active_keys s)) =
      remove_key L (ensure_active_keys s) := ensure_of_ne_nil hrem
  have hok := @set_key_ok_of_ne_nil choose (remove_key L (ensure_active_keys s)) (by rwa [hens2])
  rw [hens2] at hok
  refine ⟨{ remove_key L (ensure_active_keys s) with
            api_key := choose (max_keys (remove_key L (ensure_active_keys s)).active) },
    ?_, dlookup_dinsert_self _ _ _, not_mem_dkeys_derase hnd, ?_, ?_⟩
  · cases rots with
    | nil => simp at hrot
    | cons b bs =>
      have hb : b = false := by simpa using hrot
      subst hb
      simp [make_request, hne, hok]
  · have hc : choose (max_keys (remove_key L (ensure_active_keys s)).active) ∈
        max_keys (remove_key L (ensure_active_keys s)).active :=
      hch _ (max_keys_ne_nil hrem)
    exact List.mem_map_of_mem Prod.fst (mem_max_keys hc)
  · rfl

/-- Witness for C9 amended on `{A:25, B:25}` with a failing rotation. -/
theorem c9_rotation_failure_amended_witness :
    ∃ s3, make_request 25 lexFirst (6 + 1) (HttpOutcome.ok true 4 :: [])
        [false] softBlockInit ⟨2, 0, 1⟩ =
        (.error .vpnError, s3, ⟨2 + 1, 0 + 1, 1⟩) ∧
      dlookup s3.expired (ensure_active_keys softBlockInit).api_key = some 25 ∧
      (ensure_active_keys softBlockInit).api_key ∉ dkeys s3.active ∧
      s3.api_key ∈ dkeys s3.active ∧
      s3.file = saveRecord (remove_key 25 (ensure_active_keys softBlockInit)) :=
  c9_rotation_failure_amended 25 lexFirst lexFirst_mem 6 [] [false] 4
    softBlockInit ⟨2, 0, 1⟩ (by decide) (by decide) (by decide)

end AlphaVantage
